import Mathlib

/-!
Verification of the packaging utilities in chalice/utils.py.

The embedding models:
* POSIX path manipulation (posixpath.normpath, splitdrive, join, abspath,
  relpath, str.lstrip) over strings represented as lists of characters;
* ChaliceZipFile._create_zipinfo / write and create_zip_file, producing a
  list of archive entries (the archive bytes are a deterministic function
  of that entry list: local headers plus central directory, with deflate a
  deterministic function of each entry's data);
* os.walk over a finite directory tree;
* zipfile.ZipFile.extractall (CPython _extract_member semantics);
* a small filesystem state model for OSUtils.tempdir / remove_file
  (os.remove, shutil.rmtree, contextlib-style try/finally).
-/

namespace Chalice

/-- Python strings are modelled as lists of characters. -/
abbrev PStr := List Char

/-- Archive payload bytes. -/
abbrev Byte := Nat

/-- os.sep on POSIX hosts. -/
def sep : Char := '/'

/-- The NUL character; zipfile.ZipInfo truncates names at the first NUL. -/
def nullChar : Char := Char.ofNat 0

/-- Python str.split(os.sep): split a string at every separator, keeping
empty pieces (so splitting the empty string yields one empty piece). -/
def splitSep : PStr → List PStr
  | [] => [[]]
  | c :: rest =>
    if c = sep then [] :: splitSep rest
    else
      match splitSep rest with
      | [] => [[c]]
      | h :: t => (c :: h) :: t

/-- os.sep.join: interleave the separator between the pieces. -/
def joinSep : List PStr → PStr
  | [] => []
  | [x] => x
  | x :: y :: t => x ++ sep :: joinSep (y :: t)

/-- The initial-slash count used by posixpath.normpath: one leading slash
collapses to one, exactly two are kept as two (POSIX), three or more
collapse to one. -/
def countInitSlashes (p : PStr) : Nat :=
  if ([sep] : PStr).isPrefixOf p then
    if ([sep, sep] : PStr).isPrefixOf p ∧ ¬ (([sep, sep, sep] : PStr).isPrefixOf p) then 2
    else 1
  else 0

/-- Python os.pardir. -/
def pardir : PStr := ['.', '.']

/-- Python os.curdir. -/
def curdir : PStr := ['.']

/-- One step of the component loop inside posixpath.normpath. -/
def normStep (initSl : Nat) (acc : List PStr) (comp : PStr) : List PStr :=
  if comp = [] ∨ comp = curdir then acc
  else if comp ≠ pardir ∨ (initSl = 0 ∧ acc = []) ∨ (acc ≠ [] ∧ acc.getLast? = some pardir) then
    acc ++ [comp]
  else if acc ≠ [] then acc.dropLast
  else acc

/-- posixpath.normpath (the locals of the Python function are inlined). -/
def normpath (p : PStr) : PStr :=
  if p = [] then curdir
  else
    if List.replicate (countInitSlashes p) sep
        ++ joinSep ((splitSep p).foldl (normStep (countInitSlashes p)) []) = []
    then curdir
    else
      List.replicate (countInitSlashes p) sep
        ++ joinSep ((splitSep p).foldl (normStep (countInitSlashes p)) [])

/-- posixpath.splitdrive: POSIX paths never carry a drive component. -/
def splitdrive (p : PStr) : PStr × PStr := ([], p)

/-- OSUtils.normalized_filename: os.path.normpath(os.path.splitdrive(path)[1]). -/
def normalized_filename (p : PStr) : PStr := normpath (splitdrive p).2

/-- str.lstrip(os.sep): drop every leading separator character. -/
def lstripSep (p : PStr) : PStr := p.dropWhile (fun c => c = sep)

/-- posixpath.isabs. -/
def isabs (p : PStr) : Bool := ([sep] : PStr).isPrefixOf p

/-- posixpath.join restricted to two arguments, as used by create_zip_file. -/
def joinPath (a b : PStr) : PStr :=
  if isabs b then b
  else if a = [] ∨ a.getLast? = some sep then a ++ b
  else a ++ sep :: b

/-- posixpath.abspath, with the process working directory as a parameter. -/
def abspath (cwd p : PStr) : PStr :=
  if isabs p then normpath p else normpath (joinPath cwd p)

/-- genericpath.commonprefix specialised to two component lists: the length
of their longest common prefix. -/
def commonPrefixLen : List PStr → List PStr → Nat
  | x :: xs, y :: ys => if x = y then commonPrefixLen xs ys + 1 else 0
  | _, _ => 0

/-- posixpath.relpath (the final join of nonempty relative components
coincides with interleaving the separator). -/
def relpath (cwd path start : PStr) : PStr :=
  let startList := (splitSep (abspath cwd start)).filter (fun x => x ≠ [])
  let pathList := (splitSep (abspath cwd path)).filter (fun x => x ≠ [])
  let i := commonPrefixLen startList pathList
  let relList := List.replicate (startList.length - i) pardir ++ pathList.drop i
  if relList = [] then curdir else joinSep relList

/-- A regular file on disk: its content bytes, its permission/mode bits
(st_mode) and its modification time. -/
structure SrcFile where
  content : List Byte
  mode : Nat
  mtime : Nat
deriving DecidableEq

/-- The slice of os.stat_result that _create_zipinfo reads. -/
structure StatResult where
  st_mode : Nat
  st_size : Nat
  st_mtime : Nat
deriving DecidableEq

/-- os.stat on a regular file: st_size is the content length. -/
def statOf (f : SrcFile) : StatResult :=
  { st_mode := f.mode, st_size := f.content.length, st_mtime := f.mtime }

/-- zipfile.ZIP_STORED. -/
def ZIP_STORED : Nat := 0

/-- zipfile.ZIP_DEFLATED. -/
def ZIP_DEFLATED : Nat := 8

/-- A zip date_time tuple (year, month, day, hour, minute, second). -/
abbrev DateTime6 := Nat × Nat × Nat × Nat × Nat × Nat

/-- ChaliceZipFile._default_time_time. -/
def default_time_time : DateTime6 := (1980, 1, 1, 0, 0, 0)

/-- One archive entry as it is serialised into the zip stream: the bytes of
the archive are a deterministic function of the sequence of these entries
(CRC32 and deflate are deterministic functions of data). The field ext_attr
models ZipInfo.external_attr. -/
structure ZipEntry where
  filename : PStr
  date_time : DateTime6
  ext_attr : Nat
  file_size : Nat
  compress_type : Nat
  data : List Byte
deriving DecidableEq

/-- zipfile.ZipInfo.__init__ name handling on POSIX: truncate at the first
NUL byte (os.sep is already the forward slash, so no replacement happens). -/
def zipInfoFilename (p : PStr) : PStr := p.takeWhile (fun c => c ≠ nullChar)

/-- Python truthiness of compress_type or self.compression: None and 0
(ZIP_STORED) are falsy and select the archive default. -/
def pyOrCompress (ct : Option Nat) (dflt : Nat) : Nat :=
  match ct with
  | none => dflt
  | some v => if v = 0 then dflt else v

/-- ChaliceZipFile.write (together with _create_zipinfo and writestr): reads
the file, builds the normalized ZipInfo and appends the entry. The first
argument is self.compression, the archive-level default. -/
def zipWrite (compression : Nat) (f : SrcFile) (filename : PStr)
    (arcname : Option PStr) (compressType : Option Nat) : ZipEntry :=
  let st := statOf f
  let arc0 := match arcname with
    | none => filename
    | some a => a
  let arc := lstripSep (normalized_filename arc0)
  { filename := zipInfoFilename arc
    date_time := default_time_time
    ext_attr := (st.st_mode &&& 0xFFFF) <<< 16
    file_size := st.st_size
    compress_type := pyOrCompress compressType compression
    data := f.content }

/-- A directory tree on disk: regular files and subdirectories. -/
inductive DirTree where
  | file (name : PStr) (f : SrcFile)
  | dir (name : PStr) (children : List DirTree)

/-- The files yielded for one os.walk triple: the regular files directly in
the walked directory, with their full paths os.path.join(root, name). -/
def filesAt (root : PStr) : List DirTree → List (PStr × SrcFile)
  | [] => []
  | .file n f :: ts => (joinPath root n, f) :: filesAt root ts
  | .dir _ _ :: ts => filesAt root ts

/-- The files yielded by the recursive part of os.walk (top-down): for each
subdirectory in enumeration order, its own files then its recursion. -/
def walkChildren (root : PStr) : List DirTree → List (PStr × SrcFile)
  | [] => []
  | .file _ _ :: ts => walkChildren root ts
  | .dir n cs :: ts =>
      filesAt (joinPath root n) cs ++ walkChildren (joinPath root n) cs
        ++ walkChildren root ts

/-- All (full path, file) pairs in os.walk order starting at top. -/
def osWalkFiles (top : PStr) (ts : List DirTree) : List (PStr × SrcFile) :=
  filesAt top ts ++ walkChildren top ts

/-- create_zip_file: walk the source directory and write each regular file
with arcname os.path.relpath(full_name, source_dir), into an archive whose
default compression is ZIP_DEFLATED. The result is the entry sequence of
the produced archive. -/
def create_zip_file (cwd sourceDir : PStr) (tree : List DirTree) : List ZipEntry :=
  (osWalkFiles sourceDir tree).map fun pf =>
    zipWrite ZIP_DEFLATED pf.2 pf.1 (some (relpath cwd pf.1 sourceDir)) none

/-- An absolute POSIX path assembled from clean components. -/
def rooted (cs : List PStr) : PStr := sep :: joinSep cs

/-- Specification-side enumeration: relative component paths of the regular
files directly at the top level of a forest, in enumeration order. -/
def relFilesLevel : List DirTree → List (List PStr × SrcFile)
  | [] => []
  | .file n f :: ts => ([n], f) :: relFilesLevel ts
  | .dir _ _ :: ts => relFilesLevel ts

/-- Specification-side enumeration: relative component paths of the regular
files inside the subdirectories of a forest, in walk order. -/
def relFilesDirs : List DirTree → List (List PStr × SrcFile)
  | [] => []
  | .file _ _ :: ts => relFilesDirs ts
  | .dir n cs :: ts =>
      ((relFilesLevel cs ++ relFilesDirs cs).map fun pf => (n :: pf.1, pf.2))
        ++ relFilesDirs ts

/-- Specification-side enumeration of every regular file of a forest with
its relative component path, in os.walk order. -/
def relFilesAll (ts : List DirTree) : List (List PStr × SrcFile) :=
  relFilesLevel ts ++ relFilesDirs ts

/-- The normal form of the archive entry create_zip_file produces for a file
with clean relative component path ps. -/
def cleanEntry (ps : List PStr) (f : SrcFile) : ZipEntry :=
  { filename := joinSep ps
    date_time := default_time_time
    ext_attr := (f.mode &&& 0xFFFF) <<< 16
    file_size := f.content.length
    compress_type := ZIP_DEFLATED
    data := f.content }

/-- A path component that survives every normalization step unchanged:
nonempty, contains no separator and no NUL, and is neither os.curdir nor
os.pardir. -/
def CleanComp (c : PStr) : Prop :=
  c ≠ [] ∧ sep ∉ c ∧ nullChar ∉ c ∧ c ≠ curdir ∧ c ≠ pardir

instance (c : PStr) : Decidable (CleanComp c) := by
  unfold CleanComp; infer_instance

mutual

/-- Every name in the tree is a clean component. -/
def cleanTree : DirTree → Bool
  | .file n _ => decide (CleanComp n)
  | .dir n cs => decide (CleanComp n) && cleanForest cs

/-- Every name in the forest is a clean component. -/
def cleanForest : List DirTree → Bool
  | [] => true
  | t :: ts => cleanTree t && cleanForest ts

end

mutual

/-- Erase modification times, keeping names, contents and modes. -/
def stripTree : DirTree → DirTree
  | .file n f => .file n { f with mtime := 0 }
  | .dir n cs => .dir n (stripForest cs)

/-- Erase modification times throughout a forest. -/
def stripForest : List DirTree → List DirTree
  | [] => []
  | t :: ts => stripTree t :: stripForest ts

end

/-- The names of the direct children of a directory. -/
def namesOf : List DirTree → List PStr
  | [] => []
  | .file n _ :: ts => n :: namesOf ts
  | .dir n _ :: ts => n :: namesOf ts

/-- Boolean no-duplicates check on a list of names. -/
def nodupB : List PStr → Bool
  | [] => true
  | x :: xs => !(xs.any fun y => decide (y = x)) && nodupB xs

mutual

/-- Sibling names are pairwise distinct inside every directory of the tree. -/
def nodupTree : DirTree → Bool
  | .file _ _ => true
  | .dir _ cs => nodupB (namesOf cs) && nodupTrees cs

/-- Sibling-name distinctness for every tree of a forest. -/
def nodupTrees : List DirTree → Bool
  | [] => true
  | t :: ts => nodupTree t && nodupTrees ts

end

/-- Sibling names are pairwise distinct at the top level and inside every
directory, as on a real filesystem. -/
def nodupForest (ts : List DirTree) : Bool :=
  nodupB (namesOf ts) && nodupTrees ts

/-- The names of the regular files directly in a directory. -/
def fileNamesOf : List DirTree → List PStr
  | [] => []
  | .file n _ :: ts => n :: fileNamesOf ts
  | .dir _ _ :: ts => fileNamesOf ts

/-- CPython ZipFile._extract_member name sanitisation on POSIX: split the
member name on the separator and drop empty, curdir and pardir pieces. -/
def sanitizeMemberName (p : PStr) : PStr :=
  joinSep ((splitSep p).filter fun x => ¬ (x = [] ∨ x = curdir ∨ x = pardir))

/-- OSUtils.extract_zipfile, which delegates to zipfile.ZipFile.extractall.
CPython's _extract_member copies each member's decompressed bytes into a
file created with open(target, "wb"); it never calls chmod, so every
extracted file carries the process default creation mode (0o666 masked by
the umask), passed here as createMode. Result: (relative path, content
bytes, mode) per member. -/
def extract_zipfile (createMode : Nat) (entries : List ZipEntry) :
    List (PStr × List Byte × Nat) :=
  entries.map fun e => (sanitizeMemberName e.filename, e.data, createMode)

/-- A serialisation of an entry sequence used to witness byte-level
determinism statements on concrete inputs. -/
def demoSerialize (es : List ZipEntry) : List Byte :=
  es.flatMap fun e => e.data

/-! Filesystem state model for the OSUtils claims. Paths are component
lists; components are opaque labels. -/

/-- Python exceptions relevant to remove_file and tempdir. The first three
are OSError subclasses; userErr stands for any non-OSError exception raised
by the code inside a with-block. -/
inductive PyErr where
  | fileNotFound
  | notADirectory
  | isADirectory
  | userErr (n : Nat)
deriving DecidableEq

/-- Membership of the OSError exception class, as caught by except OSError. -/
def isOSError : PyErr → Bool
  | .userErr _ => false
  | _ => true

/-- One filesystem object: its absolute path (component list) and whether it
is a directory. -/
structure FsEntry where
  path : List Nat
  isDir : Bool
deriving DecidableEq

/-- A filesystem state: the set of existing objects. -/
abbrev Fs := List FsEntry

/-- os.path existence check. -/
def existsAt (fs : Fs) (p : List Nat) : Bool :=
  fs.any fun e => decide (e.path = p)

/-- Whether a directory exists at the path. -/
def isDirAt (fs : Fs) (p : List Nat) : Bool :=
  fs.any fun e => decide (e.path = p) && e.isDir

/-- shutil.rmtree: FileNotFoundError on an absent path, NotADirectoryError
on a non-directory, otherwise remove the directory and everything below. -/
def rmtreeFs (fs : Fs) (d : List Nat) : Except PyErr Fs :=
  if existsAt fs d = false then .error .fileNotFound
  else if isDirAt fs d = false then .error .notADirectory
  else .ok (fs.filter fun e => !(d.isPrefixOf e.path))

/-- OSUtils.tempdir: mkdtemp creates the fresh directory d, the with-block
body runs (returning the filesystem it leaves behind and its outcome), and
the finally clause runs shutil.rmtree; an exception raised by rmtree
replaces the outcome of the body, as a raise inside finally does. -/
def tempdirRun {α : Type} (d : List Nat) (fs : Fs)
    (body : Fs → Fs × Except PyErr α) : Fs × Except PyErr α :=
  match rmtreeFs (body (⟨d, true⟩ :: fs)).1 d with
  | .ok fs3 => (fs3, (body (⟨d, true⟩ :: fs)).2)
  | .error e => ((body (⟨d, true⟩ :: fs)).1, .error e)

/-- os.remove: FileNotFoundError on an absent path, IsADirectoryError on a
directory, otherwise delete the file. -/
def os_remove (fs : Fs) (p : List Nat) : Fs × Except PyErr Unit :=
  if existsAt fs p = false then (fs, .error .fileNotFound)
  else if isDirAt fs p = true then (fs, .error .isADirectory)
  else (fs.filter fun e => !(decide (e.path = p)), .ok ())

/-- OSUtils.remove_file: os.remove wrapped in try/except OSError: pass. -/
def remove_file (fs : Fs) (p : List Nat) : Fs × Except PyErr Unit :=
  match (os_remove fs p).2 with
  | .ok _ => ((os_remove fs p).1, .ok ())
  | .error e =>
    if isOSError e then ((os_remove fs p).1, .ok ())
    else ((os_remove fs p).1, .error e)

/-- A rendering of real modification times as zip date_time tuples, used by
witnesses: any time renders away from the 1980 epoch constant. -/
def demoMtimeRepr : Nat → DateTime6 :=
  fun _ => (2020, 1, 1, 0, 0, 0)

/-- A concrete source tree used by witnesses (mtimes 10 and 20). -/
def demoTree1 : List DirTree :=
  [.dir ['a'] [.file ['b'] ⟨[1, 2], 420, 10⟩], .file ['t'] ⟨[9], 493, 20⟩]

/-- The same names, contents and modes as demoTree1, different mtimes. -/
def demoTree2 : List DirTree :=
  [.dir ['a'] [.file ['b'] ⟨[1, 2], 420, 77⟩], .file ['t'] ⟨[9], 493, 88⟩]

/-- A with-block body used by witnesses: it does nothing and succeeds. -/
def demoBody : Fs → Fs × Except PyErr Unit :=
  fun fs => (fs, .ok ())

/-- A with-block body used as a counterexample: it deletes the temporary
directory itself (shutil.rmtree inside the block) and then raises. -/
def sabotageBody (d : List Nat) : Fs → Fs × Except PyErr Unit :=
  fun fs => (fs.filter fun e => !(decide (e.path = d)), .error (.userErr 1))

/-! Lemmas about the POSIX string-path functions. -/

theorem splitSep_sepFree (c : PStr) (h : sep ∉ c) : splitSep c = [c] := by
  induction c with
  | nil => rfl
  | cons a t ih =>
    have ha : ¬ (a = sep) := fun e => h (e ▸ List.mem_cons_self a t)
    have ht : sep ∉ t := fun m => h (List.mem_cons_of_mem a m)
    simp [splitSep, ha, ih ht]

theorem splitSep_append (c : PStr) (h : sep ∉ c) (r : PStr) :
    splitSep (c ++ sep :: r) = c :: splitSep r := by
  induction c with
  | nil => simp [splitSep]
  | cons a t ih =>
    have ha : ¬ (a = sep) := fun e => h (e ▸ List.mem_cons_self a t)
    have ht : sep ∉ t := fun m => h (List.mem_cons_of_mem a m)
    simp [splitSep, ha, ih ht]

theorem splitSep_joinSep (ps : List PStr) (hne : ps ≠ [])
    (h : ∀ p ∈ ps, sep ∉ p) : splitSep (joinSep ps) = ps := by
  induction ps with
  | nil => cases hne rfl
  | cons x t ih =>
    cases t with
    | nil => exact splitSep_sepFree x (h x (by simp))
    | cons y t2 =>
      show splitSep (x ++ sep :: joinSep (y :: t2)) = x :: y :: t2
      rw [splitSep_append x (h x (by simp))]
      rw [ih (by simp) (fun p hp => h p (List.mem_cons_of_mem x hp))]

theorem joinSep_ne_nil (ps : List PStr) (hne : ps ≠ []) (h : ∀ p ∈ ps, p ≠ []) :
    joinSep ps ≠ [] := by
  match ps with
  | [x] => exact h x (by simp)
  | x :: y :: t => simp [joinSep]

theorem joinSep_cons_head (a : Char) (x' : PStr) (t : List PStr) :
    ∃ r, joinSep ((a :: x') :: t) = a :: r := by
  cases t with
  | nil => exact ⟨x', rfl⟩
  | cons y t2 => exact ⟨x' ++ sep :: joinSep (y :: t2), rfl⟩

theorem joinSep_append_last (rcs : List PStr) (hne : rcs ≠ []) (n : PStr) :
    joinSep (rcs ++ [n]) = joinSep rcs ++ sep :: n := by
  induction rcs with
  | nil => cases hne rfl
  | cons x t ih =>
    cases t with
    | nil => rfl
    | cons y t2 =>
      show joinSep (x :: ((y :: t2) ++ [n])) = (x ++ sep :: joinSep (y :: t2)) ++ sep :: n
      rw [List.cons_append]
      show x ++ sep :: joinSep ((y :: t2) ++ [n]) = (x ++ sep :: joinSep (y :: t2)) ++ sep :: n
      rw [ih (by simp)]
      simp

theorem mem_joinSep (c : Char) (ps : List PStr) (h : c ∈ joinSep ps) :
    c = sep ∨ ∃ p ∈ ps, c ∈ p := by
  induction ps with
  | nil => cases h
  | cons x t ih =>
    cases t with
    | nil => exact Or.inr ⟨x, by simp, h⟩
    | cons y t2 =>
      rcases List.mem_append.mp h with hx | hrest
      · exact Or.inr ⟨x, by simp, hx⟩
      · rcases List.mem_cons.mp hrest with rfl | hj
        · exact Or.inl rfl
        · rcases ih hj with h1 | ⟨p, hp, hcp⟩
          · exact Or.inl h1
          · exact Or.inr ⟨p, List.mem_cons_of_mem _ hp, hcp⟩

theorem isPrefixOf_single_cons (c : Char) (r : PStr) :
    ([sep] : PStr).isPrefixOf (c :: r) = (sep == c) := by
  simp [List.isPrefixOf]

theorem countInitSlashes_cons_ne (a : Char) (r : PStr) (h : a ≠ sep) :
    countInitSlashes (a :: r) = 0 := by
  have : ([sep] : PStr).isPrefixOf (a :: r) = false := by
    rw [isPrefixOf_single_cons]
    simp [Ne.symm h]
  simp [countInitSlashes, this]

theorem countInitSlashes_rooted (j : PStr) (h : ∀ r, j ≠ sep :: r) :
    countInitSlashes (sep :: j) = 1 := by
  have h1 : ([sep] : PStr).isPrefixOf (sep :: j) = true := by
    simp [List.isPrefixOf]
  have h2 : ([sep, sep] : PStr).isPrefixOf (sep :: j) = false := by
    cases j with
    | nil => rfl
    | cons c r =>
      have : ¬ (c = sep) := fun e => h r (by rw [e])
      simp [List.isPrefixOf]
      exact fun e => this e.symm
  simp [countInitSlashes, h1, h2]

theorem normStep_nil (i : Nat) (acc : List PStr) : normStep i acc [] = acc := by
  simp [normStep]

theorem normStep_curdir (i : Nat) (acc : List PStr) : normStep i acc curdir = acc := by
  simp [normStep]

theorem normStep_clean (i : Nat) (acc : List PStr) (c : PStr)
    (h1 : c ≠ []) (h2 : c ≠ curdir) (h3 : c ≠ pardir) :
    normStep i acc c = acc ++ [c] := by
  rw [normStep, if_neg (by simp [h1, h2]), if_pos (Or.inl h3)]

theorem foldl_normStep_clean (i : Nat) (l : List PStr)
    (h : ∀ c ∈ l, c ≠ [] ∧ c ≠ curdir ∧ c ≠ pardir) :
    ∀ acc, l.foldl (normStep i) acc = acc ++ l := by
  induction l with
  | nil => simp
  | cons c t ih =>
    intro acc
    obtain ⟨h1, h2, h3⟩ := h c (by simp)
    rw [List.foldl_cons, normStep_clean i acc c h1 h2 h3,
        ih (fun x hx => h x (List.mem_cons_of_mem c hx)) (acc ++ [c])]
    simp

theorem cleanComp_not_special (c : PStr) (h : CleanComp c) :
    c ≠ [] ∧ c ≠ curdir ∧ c ≠ pardir :=
  ⟨h.1, h.2.2.2.1, h.2.2.2.2⟩

theorem joinSep_head_ne_sep (ps : List PStr) (hne : ps ≠ [])
    (h : ∀ p ∈ ps, CleanComp p) : ∀ r, joinSep ps ≠ sep :: r := by
  obtain ⟨x, t, rfl⟩ := List.exists_cons_of_ne_nil hne
  have hx : CleanComp x := h x (List.mem_cons_self x t)
  obtain ⟨a, x', rfl⟩ := List.exists_cons_of_ne_nil hx.1
  obtain ⟨r0, hr0⟩ := joinSep_cons_head a x' t
  intro r hEq
  rw [hr0] at hEq
  have ha : a = sep := (List.cons.injEq a r0 sep r).mp hEq |>.1
  subst ha
  exact hx.2.1 (List.mem_cons_self sep x')

theorem normpath_clean_rel (ps : List PStr) (hne : ps ≠ [])
    (h : ∀ p ∈ ps, CleanComp p) : normpath (joinSep ps) = joinSep ps := by
  have hj : joinSep ps ≠ [] := joinSep_ne_nil ps hne (fun p hp => (h p hp).1)
  obtain ⟨x, t, hx⟩ := List.exists_cons_of_ne_nil hne
  have hxc : CleanComp x := h x (by rw [hx]; exact List.mem_cons_self x t)
  obtain ⟨a, x', hax⟩ := List.exists_cons_of_ne_nil hxc.1
  have hcnt : countInitSlashes (joinSep ps) = 0 := by
    obtain ⟨r0, hr0⟩ := joinSep_cons_head a x' t
    rw [hx, hax, hr0]
    refine countInitSlashes_cons_ne a r0 (fun e => hxc.2.1 ?_)
    rw [hax, e]
    exact List.mem_cons_self sep x'
  rw [normpath, if_neg hj, hcnt]
  rw [splitSep_joinSep ps hne (fun p hp => (h p hp).2.1)]
  rw [foldl_normStep_clean 0 ps (fun c hc => cleanComp_not_special c (h c hc)) []]
  simp [hj]

theorem normpath_rooted (ps : List PStr) (h : ∀ p ∈ ps, CleanComp p) :
    normpath (rooted ps) = rooted ps := by
  have hcnt : countInitSlashes (sep :: joinSep ps) = 1 := by
    refine countInitSlashes_rooted (joinSep ps) ?_
    cases Decidable.em (ps = []) with
    | inl hnil => subst hnil; intro r e; cases e
    | inr hne => exact joinSep_head_ne_sep ps hne h
  rw [rooted, normpath, if_neg (by simp), hcnt]
  have hsplit : splitSep (sep :: joinSep ps) = [] :: splitSep (joinSep ps) := by
    simp [splitSep, sep]
  rw [hsplit]
  cases Decidable.em (ps = []) with
  | inl hnil =>
    subst hnil
    simp [splitSep, normStep_nil, joinSep]
  | inr hne =>
    rw [splitSep_joinSep ps hne (fun p hp => (h p hp).2.1)]
    rw [List.foldl_cons, normStep_nil]
    rw [foldl_normStep_clean 1 ps (fun c hc => cleanComp_not_special c (h c hc)) []]
    have hj : joinSep ps ≠ [] := joinSep_ne_nil ps hne (fun p hp => (h p hp).1)
    simp

theorem isabs_rooted (ps : List PStr) : isabs (rooted ps) = true := by
  simp [isabs, rooted, List.isPrefixOf]

theorem abspath_rooted (cwd : PStr) (ps : List PStr) (h : ∀ p ∈ ps, CleanComp p) :
    abspath cwd (rooted ps) = rooted ps := by
  rw [abspath, if_pos (isabs_rooted ps), normpath_rooted ps h]

theorem filter_splitSep_rooted (ps : List PStr) (h : ∀ p ∈ ps, CleanComp p) :
    (splitSep (rooted ps)).filter (fun x => x ≠ []) = ps := by
  have hsplit : splitSep (sep :: joinSep ps) = [] :: splitSep (joinSep ps) := by
    simp [splitSep, sep]
  rw [rooted, hsplit]
  cases Decidable.em (ps = []) with
  | inl hnil => subst hnil; simp [splitSep, joinSep]
  | inr hne =>
    rw [splitSep_joinSep ps hne (fun p hp => (h p hp).2.1)]
    rw [List.filter_cons]
    simp only [decide_not]
    rw [if_neg (by simp)]
    exact List.filter_eq_self.mpr (fun a ha => by simp [(h a ha).1])

theorem commonPrefixLen_append (l r : List PStr) :
    commonPrefixLen l (l ++ r) = l.length := by
  induction l with
  | nil => cases r <;> rfl
  | cons x t ih => simp [commonPrefixLen, ih]

theorem relpath_rooted (cwd : PStr) (sd ps : List PStr)
    (hsd : ∀ c ∈ sd, CleanComp c) (hps : ∀ c ∈ ps, CleanComp c)
    (hne : ps ≠ []) :
    relpath cwd (rooted (sd ++ ps)) (rooted sd) = joinSep ps := by
  have hall : ∀ c ∈ sd ++ ps, CleanComp c := by
    intro c hc
    rcases List.mem_append.mp hc with h1 | h2
    · exact hsd c h1
    · exact hps c h2
  rw [relpath]
  rw [abspath_rooted cwd sd hsd, abspath_rooted cwd (sd ++ ps) hall]
  rw [filter_splitSep_rooted sd hsd, filter_splitSep_rooted (sd ++ ps) hall]
  rw [commonPrefixLen_append sd ps]
  rw [Nat.sub_self, List.replicate_zero, List.drop_left, List.nil_append]
  rw [if_neg hne]

theorem lstripSep_of_head_ne (p : PStr) (h : ∀ r, p ≠ sep :: r) :
    lstripSep p = p := by
  cases p with
  | nil => rfl
  | cons a t =>
    have ha : ¬ (a = sep) := fun e => h t (by rw [e])
    simp [lstripSep, List.dropWhile_cons, ha]

theorem zipInfoFilename_of_no_null (p : PStr) (h : nullChar ∉ p) :
    zipInfoFilename p = p := by
  rw [zipInfoFilename]
  refine List.takeWhile_eq_self_iff.mpr (fun x hx => ?_)
  simp
  exact fun e => h (e ▸ hx)

theorem no_null_joinSep (ps : List PStr) (h : ∀ p ∈ ps, CleanComp p) :
    nullChar ∉ joinSep ps := by
  intro hmem
  rcases mem_joinSep nullChar ps hmem with h1 | ⟨p, hp, hcp⟩
  · exact absurd h1 (by decide)
  · exact (h p hp).2.2.1 hcp

theorem normalized_filename_clean (ps : List PStr) (hne : ps ≠ [])
    (h : ∀ p ∈ ps, CleanComp p) :
    normalized_filename (joinSep ps) = joinSep ps := by
  rw [normalized_filename, splitdrive]
  exact normpath_clean_rel ps hne h

theorem zipWrite_clean (f : SrcFile) (fn : PStr) (ps : List PStr)
    (hne : ps ≠ []) (h : ∀ p ∈ ps, CleanComp p) :
    zipWrite ZIP_DEFLATED f fn (some (joinSep ps)) none = cleanEntry ps f := by
  rw [zipWrite, normalized_filename_clean ps hne h]
  rw [lstripSep_of_head_ne (joinSep ps) (joinSep_head_ne_sep ps hne h)]
  rw [zipInfoFilename_of_no_null (joinSep ps) (no_null_joinSep ps h)]
  rfl

theorem getLast?_ne_sep_of_sepFree (x : PStr) (hne : x ≠ []) (h : sep ∉ x) :
    x.getLast? ≠ some sep := by
  induction x with
  | nil => cases hne rfl
  | cons a t ih =>
    cases t with
    | nil =>
      simp only [List.getLast?_singleton]
      intro e
      exact h (by simp [Option.some.injEq] at e; rw [e]; exact List.mem_cons_self sep [])
    | cons b t2 =>
      rw [List.getLast?_cons_cons]
      exact ih (by simp) (fun m => h (List.mem_cons_of_mem a m))

theorem getLast?_joinSep_ne_sep (rcs : List PStr) (hne : rcs ≠ [])
    (h : ∀ c ∈ rcs, CleanComp c) : (joinSep rcs).getLast? ≠ some sep := by
  induction rcs with
  | nil => cases hne rfl
  | cons x t ih =>
    cases t with
    | nil =>
      exact getLast?_ne_sep_of_sepFree x (h x (by simp)).1 (h x (by simp)).2.1
    | cons y t2 =>
      show (x ++ sep :: joinSep (y :: t2)).getLast? ≠ some sep
      have hj : joinSep (y :: t2) ≠ [] :=
        joinSep_ne_nil (y :: t2) (by simp) (fun p hp => (h p (List.mem_cons_of_mem x hp)).1)
      rw [List.getLast?_append_of_ne_nil x (by simp)]
      obtain ⟨b, t3, hb⟩ := List.exists_cons_of_ne_nil hj
      rw [hb, List.getLast?_cons_cons, ← hb]
      exact ih (by simp) (fun c hc => h c (List.mem_cons_of_mem x hc))

theorem joinPath_rooted (rcs : List PStr) (n : PStr)
    (hrcs : ∀ c ∈ rcs, CleanComp c) (hn : CleanComp n) :
    joinPath (rooted rcs) n = rooted (rcs ++ [n]) := by
  have hnabs : isabs n = false := by
    obtain ⟨a, t, ha⟩ := List.exists_cons_of_ne_nil hn.1
    rw [ha, isabs, isPrefixOf_single_cons]
    have : ¬ (a = sep) := fun e => hn.2.1 (by rw [ha, e]; exact List.mem_cons_self sep t)
    simp
    exact fun e => this e.symm
  rw [joinPath, hnabs]
  simp only [Bool.false_eq_true, if_false]
  cases Decidable.em (rcs = []) with
  | inl hnil =>
    subst hnil
    rw [if_pos (Or.inr (by simp [rooted, joinSep]))]
    simp [rooted, joinSep]
  | inr hne =>
    rw [if_neg]
    · rw [rooted, rooted, joinSep_append_last rcs hne n]
      simp
    · rintro (h1 | h2)
      · exact absurd h1 (by simp [rooted])
      · have : (rooted rcs).getLast? = (joinSep rcs).getLast? := by
          rw [rooted]
          have hj : joinSep rcs ≠ [] :=
            joinSep_ne_nil rcs hne (fun p hp => (hrcs p hp).1)
          obtain ⟨b, t3, hb⟩ := List.exists_cons_of_ne_nil hj
          rw [hb, List.getLast?_cons_cons]
        rw [this] at h2
        exact getLast?_joinSep_ne_sep rcs hne hrcs h2

theorem cleanForest_cons_iff (t : DirTree) (ts : List DirTree) :
    cleanForest (t :: ts) = true ↔ cleanTree t = true ∧ cleanForest ts = true := by
  simp [cleanForest]

theorem cleanTree_file_iff (n : PStr) (f : SrcFile) :
    cleanTree (.file n f) = true ↔ CleanComp n := by
  simp [cleanTree]

theorem cleanTree_dir_iff (n : PStr) (cs : List DirTree) :
    cleanTree (.dir n cs) = true ↔ CleanComp n ∧ cleanForest cs = true := by
  simp [cleanTree]

theorem clean_append_comp (rcs : List PStr) (n : PStr)
    (hrcs : ∀ c ∈ rcs, CleanComp c) (hn : CleanComp n) :
    ∀ c ∈ rcs ++ [n], CleanComp c := by
  intro c hc
  rcases List.mem_append.mp hc with h1 | h2
  · exact hrcs c h1
  · rw [List.mem_singleton.mp h2]
    exact hn

theorem filesAt_corr (rcs : List PStr) (ts : List DirTree)
    (hrcs : ∀ c ∈ rcs, CleanComp c) (hclean : cleanForest ts = true) :
    filesAt (rooted rcs) ts
      = (relFilesLevel ts).map (fun pf => (rooted (rcs ++ pf.1), pf.2)) := by
  match ts with
  | [] => rfl
  | .file n f :: ts2 =>
    obtain ⟨h1, h2⟩ := (cleanForest_cons_iff _ _).mp hclean
    have hn : CleanComp n := (cleanTree_file_iff n f).mp h1
    show (joinPath (rooted rcs) n, f) :: filesAt (rooted rcs) ts2 = _
    rw [joinPath_rooted rcs n hrcs hn, filesAt_corr rcs ts2 hrcs h2]
    rfl
  | .dir n cs :: ts2 =>
    obtain ⟨h1, h2⟩ := (cleanForest_cons_iff _ _).mp hclean
    show filesAt (rooted rcs) ts2 = _
    rw [filesAt_corr rcs ts2 hrcs h2]
    rfl

theorem walkChildren_corr (ts : List DirTree) (rcs : List PStr)
    (hrcs : ∀ c ∈ rcs, CleanComp c) (hclean : cleanForest ts = true) :
    walkChildren (rooted rcs) ts
      = (relFilesDirs ts).map (fun pf => (rooted (rcs ++ pf.1), pf.2)) := by
  match ts with
  | [] => simp [walkChildren, relFilesDirs]
  | .file n f :: ts2 =>
    obtain ⟨h1, h2⟩ := (cleanForest_cons_iff _ _).mp hclean
    simp only [walkChildren, relFilesDirs]
    exact walkChildren_corr ts2 rcs hrcs h2
  | .dir n cs :: ts2 =>
    obtain ⟨h1, h2⟩ := (cleanForest_cons_iff _ _).mp hclean
    obtain ⟨hn, hcs⟩ := (cleanTree_dir_iff n cs).mp h1
    have hrcs2 : ∀ c ∈ rcs ++ [n], CleanComp c := clean_append_comp rcs n hrcs hn
    simp only [walkChildren, relFilesDirs]
    rw [joinPath_rooted rcs n hrcs hn]
    rw [filesAt_corr (rcs ++ [n]) cs hrcs2 hcs]
    rw [walkChildren_corr cs (rcs ++ [n]) hrcs2 hcs]
    rw [walkChildren_corr ts2 rcs hrcs h2]
    simp only [List.map_append, List.map_map, Function.comp, List.append_assoc]
    have hfun : ((fun pf : List PStr × SrcFile => (rooted (rcs ++ pf.1), pf.2))
          ∘ fun pf : List PStr × SrcFile => (n :: pf.1, pf.2))
        = fun pf : List PStr × SrcFile => (rooted (rcs ++ ([n] ++ pf.1)), pf.2) :=
      funext fun pf => rfl
    rw [hfun]
termination_by sizeOf ts

theorem osWalkFiles_corr (sd : List PStr) (ts : List DirTree)
    (hsd : ∀ c ∈ sd, CleanComp c) (hclean : cleanForest ts = true) :
    osWalkFiles (rooted sd) ts
      = (relFilesAll ts).map (fun pf => (rooted (sd ++ pf.1), pf.2)) := by
  rw [osWalkFiles, relFilesAll, List.map_append,
      filesAt_corr sd ts hsd hclean, walkChildren_corr ts sd hsd hclean]

theorem mem_relFilesAll_file (n : PStr) (f : SrcFile) (ts2 : List DirTree)
    (pf : List PStr × SrcFile) :
    pf ∈ relFilesAll (.file n f :: ts2) ↔ pf = ([n], f) ∨ pf ∈ relFilesAll ts2 := by
  simp [relFilesAll, relFilesLevel, relFilesDirs, List.mem_append]

theorem mem_relFilesAll_dir (n : PStr) (cs ts2 : List DirTree)
    (pf : List PStr × SrcFile) :
    pf ∈ relFilesAll (.dir n cs :: ts2)
      ↔ (∃ qf ∈ relFilesAll cs, pf = (n :: qf.1, qf.2)) ∨ pf ∈ relFilesAll ts2 := by
  simp only [relFilesAll, relFilesLevel, relFilesDirs, List.mem_append, List.mem_map]
  constructor
  · rintro (hL | hrest)
    · exact Or.inr (Or.inl hL)
    · rcases hrest with ⟨qf, hqf, heq⟩ | hD
      · exact Or.inl ⟨qf, hqf, heq.symm⟩
      · exact Or.inr (Or.inr hD)
  · rintro (⟨qf, hqf, heq⟩ | hL | hD)
    · exact Or.inr (Or.inl ⟨qf, hqf, heq.symm⟩)
    · exact Or.inl hL
    · exact Or.inr (Or.inr hD)

theorem relFilesAll_clean (ts : List DirTree) (h : cleanForest ts = true) :
    ∀ pf ∈ relFilesAll ts, pf.1 ≠ [] ∧ ∀ c ∈ pf.1, CleanComp c := by
  match ts with
  | [] =>
    intro pf hpf
    simp [relFilesAll, relFilesLevel, relFilesDirs] at hpf
  | .file n f :: ts2 =>
    obtain ⟨h1, h2⟩ := (cleanForest_cons_iff _ _).mp h
    have hn := (cleanTree_file_iff n f).mp h1
    intro pf hpf
    rcases (mem_relFilesAll_file n f ts2 pf).mp hpf with rfl | h3
    · refine ⟨by simp, ?_⟩
      intro c hc
      rw [List.mem_singleton.mp hc]
      exact hn
    · exact relFilesAll_clean ts2 h2 pf h3
  | .dir n cs :: ts2 =>
    obtain ⟨h1, h2⟩ := (cleanForest_cons_iff _ _).mp h
    obtain ⟨hn, hcs⟩ := (cleanTree_dir_iff n cs).mp h1
    intro pf hpf
    rcases (mem_relFilesAll_dir n cs ts2 pf).mp hpf with ⟨qf, hqf, rfl⟩ | h3
    · obtain ⟨hq1, hq2⟩ := relFilesAll_clean cs hcs qf hqf
      refine ⟨by simp, ?_⟩
      intro c hc
      rcases List.mem_cons.mp hc with rfl | hc2
      · exact hn
      · exact hq2 c hc2
    · exact relFilesAll_clean ts2 h2 pf h3
termination_by sizeOf ts

theorem stripForest_level (ts : List DirTree) :
    relFilesLevel (stripForest ts)
      = (relFilesLevel ts).map (fun pf => (pf.1, { pf.2 with mtime := 0 })) := by
  induction ts with
  | nil => rfl
  | cons t ts2 ih =>
    cases t with
    | file n f => simp [stripForest, stripTree, relFilesLevel, ih]
    | dir n cs => simp [stripForest, stripTree, relFilesLevel, ih]

theorem stripForest_dirs (ts : List DirTree) :
    relFilesDirs (stripForest ts)
      = (relFilesDirs ts).map (fun pf => (pf.1, { pf.2 with mtime := 0 })) := by
  match ts with
  | [] => simp [stripForest, relFilesDirs]
  | .file n f :: ts2 =>
    simp only [stripForest, stripTree, relFilesDirs]
    exact stripForest_dirs ts2
  | .dir n cs :: ts2 =>
    simp only [stripForest, stripTree, relFilesDirs]
    rw [stripForest_level cs, stripForest_dirs cs, stripForest_dirs ts2]
    simp only [List.map_append, List.map_map]
    have hfun : ((fun pf : List PStr × SrcFile => (n :: pf.1, pf.2))
          ∘ fun pf : List PStr × SrcFile => (pf.1, { pf.2 with mtime := 0 }))
        = ((fun pf : List PStr × SrcFile => (pf.1, { pf.2 with mtime := 0 }))
          ∘ fun pf : List PStr × SrcFile => (n :: pf.1, pf.2)) := funext fun pf => rfl
    rw [hfun]
termination_by sizeOf ts

theorem stripForest_all (ts : List DirTree) :
    relFilesAll (stripForest ts)
      = (relFilesAll ts).map (fun pf => (pf.1, { pf.2 with mtime := 0 })) := by
  rw [relFilesAll, relFilesAll, List.map_append, stripForest_level ts, stripForest_dirs ts]

theorem create_zip_file_normal (cwd : PStr) (sd : List PStr) (ts : List DirTree)
    (hsd : ∀ c ∈ sd, CleanComp c) (hts : cleanForest ts = true) :
    create_zip_file cwd (rooted sd) ts
      = (relFilesAll ts).map (fun pf => cleanEntry pf.1 pf.2) := by
  rw [create_zip_file, osWalkFiles_corr sd ts hsd hts, List.map_map]
  refine List.map_congr_left (fun pf hpf => ?_)
  obtain ⟨hne, hcl⟩ := relFilesAll_clean ts hts pf hpf
  simp only [Function.comp]
  rw [relpath_rooted cwd sd pf.1 hsd hcl hne]
  exact zipWrite_clean pf.2 (rooted (sd ++ pf.1)) pf.1 hne hcl

theorem nodupB_iff (l : List PStr) : nodupB l = true ↔ l.Nodup := by
  induction l with
  | nil => simp [nodupB]
  | cons x xs ih =>
    simp [nodupB, List.nodup_cons, ih, List.any_eq_true]
    intro _
    constructor
    · intro hall hmem
      exact hall x hmem rfl
    · intro hnm y hy e
      exact hnm (e ▸ hy)

theorem relFilesLevel_paths (ts : List DirTree) :
    (relFilesLevel ts).map (fun pf => pf.1) = (fileNamesOf ts).map (fun n => [n]) := by
  induction ts with
  | nil => rfl
  | cons t ts2 ih =>
    cases t with
    | file n f => simp [relFilesLevel, fileNamesOf, ih]
    | dir n cs => simp [relFilesLevel, fileNamesOf, ih]

theorem fileNamesOf_sublist (ts : List DirTree) :
    (fileNamesOf ts).Sublist (namesOf ts) := by
  induction ts with
  | nil => simp [fileNamesOf, namesOf]
  | cons t ts2 ih =>
    cases t with
    | file n f =>
      simp only [fileNamesOf, namesOf]
      exact ih.cons₂ n
    | dir n cs =>
      simp only [fileNamesOf, namesOf]
      exact ih.cons n

theorem relFilesLevel_shape (ts : List DirTree) :
    ∀ pf ∈ relFilesLevel ts, ∃ m, pf.1 = [m] ∧ m ∈ fileNamesOf ts := by
  induction ts with
  | nil => intro pf h; simp [relFilesLevel] at h
  | cons t ts2 ih =>
    cases t with
    | file n f =>
      intro pf h
      rcases List.mem_cons.mp h with rfl | h2
      · exact ⟨n, rfl, by simp [fileNamesOf]⟩
      · obtain ⟨m, h1, h3⟩ := ih pf h2
        exact ⟨m, h1, by simp [fileNamesOf, h3]⟩
    | dir n cs =>
      intro pf h
      simp only [relFilesLevel] at h
      obtain ⟨m, h1, h3⟩ := ih pf h
      exact ⟨m, h1, by simp [fileNamesOf, h3]⟩

theorem relFilesDirs_shape0 (ts : List DirTree) :
    ∀ pf ∈ relFilesDirs ts, ∃ m q, pf.1 = m :: q := by
  induction ts with
  | nil => intro pf h; simp [relFilesDirs] at h
  | cons t ts2 ih =>
    cases t with
    | file n f =>
      intro pf h
      simp only [relFilesDirs] at h
      exact ih pf h
    | dir n cs =>
      intro pf h
      simp only [relFilesDirs, List.mem_append, List.mem_map] at h
      rcases h with ⟨qf, hqf, rfl⟩ | h2
      · exact ⟨n, qf.1, rfl⟩
      · exact ih pf h2

theorem relFilesAll_ne_nil (ts : List DirTree) :
    ∀ pf ∈ relFilesAll ts, pf.1 ≠ [] := by
  intro pf h
  rcases List.mem_append.mp h with hL | hD
  · obtain ⟨m, h1, _⟩ := relFilesLevel_shape ts pf hL
    simp [h1]
  · obtain ⟨m, q, h1⟩ := relFilesDirs_shape0 ts pf hD
    simp [h1]

theorem relFilesDirs_shape (ts : List DirTree) :
    ∀ pf ∈ relFilesDirs ts, ∃ m q, pf.1 = m :: q ∧ q ≠ [] ∧ m ∈ namesOf ts := by
  induction ts with
  | nil => intro pf h; simp [relFilesDirs] at h
  | cons t ts2 ih =>
    cases t with
    | file n f =>
      intro pf h
      simp only [relFilesDirs] at h
      obtain ⟨m, q, h1, h2, h3⟩ := ih pf h
      exact ⟨m, q, h1, h2, by simp [namesOf, h3]⟩
    | dir n cs =>
      intro pf h
      simp only [relFilesDirs, List.mem_append, List.mem_map] at h
      rcases h with ⟨qf, hqf, rfl⟩ | h2
      · have hqfAll : qf ∈ relFilesAll cs := by
          rw [relFilesAll]
          exact List.mem_append.mpr hqf
        exact ⟨n, qf.1, rfl, relFilesAll_ne_nil cs qf hqfAll, by simp [namesOf]⟩
      · obtain ⟨m, q, h1, h2b, h3⟩ := ih pf h2
        exact ⟨m, q, h1, h2b, by simp [namesOf, h3]⟩

theorem relFilesAll_nodup_of_dirs (ts : List DirTree)
    (hnb : nodupB (namesOf ts) = true)
    (hD : ((relFilesDirs ts).map (fun pf => pf.1)).Nodup) :
    ((relFilesAll ts).map (fun pf => pf.1)).Nodup := by
  rw [relFilesAll, List.map_append, List.nodup_append]
  refine ⟨?_, hD, ?_⟩
  · rw [relFilesLevel_paths]
    refine List.Nodup.map (fun a b e => by simpa using e) ?_
    exact ((nodupB_iff _).mp hnb).sublist (fileNamesOf_sublist ts)
  · intro p hp hq
    rw [relFilesLevel_paths] at hp
    obtain ⟨m, _, rfl⟩ := List.mem_map.mp hp
    obtain ⟨pf, hpf, hppf⟩ := List.mem_map.mp hq
    obtain ⟨m2, q, h1, h2, _⟩ := relFilesDirs_shape ts pf hpf
    rw [h1] at hppf
    have : q = [] := (List.cons.injEq m2 q m []).mp hppf |>.2
    exact h2 this

theorem namesOf_cons_file (n : PStr) (f : SrcFile) (ts : List DirTree) :
    namesOf (.file n f :: ts) = n :: namesOf ts := rfl

theorem namesOf_cons_dir (n : PStr) (cs ts : List DirTree) :
    namesOf (.dir n cs :: ts) = n :: namesOf ts := rfl

theorem nodupTrees_cons_iff (t : DirTree) (ts : List DirTree) :
    nodupTrees (t :: ts) = true ↔ nodupTree t = true ∧ nodupTrees ts = true := by
  simp [nodupTrees]

theorem nodupTree_dir_iff (n : PStr) (cs : List DirTree) :
    nodupTree (.dir n cs) = true ↔ nodupB (namesOf cs) = true ∧ nodupTrees cs = true := by
  simp [nodupTree]

theorem relFilesDirs_paths_nodup (ts : List DirTree)
    (hnb : nodupB (namesOf ts) = true) (hnt : nodupTrees ts = true) :
    ((relFilesDirs ts).map (fun pf => pf.1)).Nodup := by
  match ts with
  | [] => simp [relFilesDirs]
  | .file n f :: ts2 =>
    have hnames : (n :: namesOf ts2).Nodup := (nodupB_iff _).mp (namesOf_cons_file n f ts2 ▸ hnb)
    have hnb2 : nodupB (namesOf ts2) = true := (nodupB_iff _).mpr (List.nodup_cons.mp hnames).2
    have hnt2 : nodupTrees ts2 = true := ((nodupTrees_cons_iff _ _).mp hnt).2
    simp only [relFilesDirs]
    exact relFilesDirs_paths_nodup ts2 hnb2 hnt2
  | .dir n cs :: ts2 =>
    have hnames : (n :: namesOf ts2).Nodup := (nodupB_iff _).mp (namesOf_cons_dir n cs ts2 ▸ hnb)
    have hnmem : n ∉ namesOf ts2 := (List.nodup_cons.mp hnames).1
    have hnb2 : nodupB (namesOf ts2) = true := (nodupB_iff _).mpr (List.nodup_cons.mp hnames).2
    obtain ⟨hdt, hnt2⟩ := (nodupTrees_cons_iff _ _).mp hnt
    obtain ⟨hnbcs, hntcs⟩ := (nodupTree_dir_iff n cs).mp hdt
    simp only [relFilesDirs]
    rw [List.map_append, List.nodup_append]
    refine ⟨?_, relFilesDirs_paths_nodup ts2 hnb2 hnt2, ?_⟩
    · rw [List.map_map]
      have hfun : ((fun pf : List PStr × SrcFile => pf.1)
            ∘ fun qf : List PStr × SrcFile => (n :: qf.1, qf.2))
          = (fun q : List PStr => n :: q) ∘ (fun pf : List PStr × SrcFile => pf.1) :=
        funext fun qf => rfl
      rw [hfun, ← List.map_map]
      refine List.Nodup.map (fun a b e => by simpa using e) ?_
      exact relFilesAll_nodup_of_dirs cs hnbcs (relFilesDirs_paths_nodup cs hnbcs hntcs)
    · intro p hp hq
      rw [List.map_map] at hp
      obtain ⟨qf, _, rfl⟩ := List.mem_map.mp hp
      obtain ⟨pf, hpf, hppf⟩ := List.mem_map.mp hq
      obtain ⟨m2, q, h1, _, h3⟩ := relFilesDirs_shape ts2 pf hpf
      rw [h1] at hppf
      have hm2 : m2 = n := ((List.cons.injEq m2 q _ _).mp hppf).1
      exact hnmem (hm2 ▸ h3)
termination_by sizeOf ts

theorem relFilesAll_paths_nodup (ts : List DirTree) (hnd : nodupForest ts = true) :
    ((relFilesAll ts).map (fun pf => pf.1)).Nodup := by
  obtain ⟨hnb, hnt⟩ := (Bool.and_eq_true _ _).mp (by simpa [nodupForest] using hnd)
  exact relFilesAll_nodup_of_dirs ts hnb (relFilesDirs_paths_nodup ts hnb hnt)

theorem lstripSep_head (p : PStr) : ∀ r, lstripSep p ≠ sep :: r := by
  induction p with
  | nil => intro r h; cases h
  | cons a t ih =>
    intro r h
    rw [lstripSep, List.dropWhile_cons] at h
    by_cases ha : a = sep
    · rw [if_pos (by simp [ha])] at h
      exact ih r h
    · rw [if_neg (by simp [ha])] at h
      exact ha ((List.cons.injEq a t sep r).mp h).1

theorem takeWhile_head (q : Char → Bool) (p : PStr) (c : Char) (r : PStr)
    (h : p.takeWhile q = c :: r) : ∃ r2, p = c :: r2 := by
  cases p with
  | nil => cases h
  | cons a t =>
    rw [List.takeWhile_cons] at h
    by_cases hq : q a = true
    · rw [if_pos hq] at h
      exact ⟨t, by rw [((List.cons.injEq a _ c r).mp h).1]⟩
    · rw [if_neg hq] at h
      cases h

theorem zipName_no_leading_sep (x : PStr) :
    (zipInfoFilename (lstripSep x)).take 1 ≠ [sep] := by
  cases hz : zipInfoFilename (lstripSep x) with
  | nil => simp
  | cons a t =>
    obtain ⟨r2, hr2⟩ := takeWhile_head _ _ a t hz
    intro htake
    have ha : a = sep := by simpa using htake
    exact lstripSep_head x r2 (ha ▸ hr2)

/-! Claim theorems. -/

/-- C1: determinism of packaging. For any two runs of create_zip_file over
source trees whose names, contents and permission bits agree (stripForest
erases only modification times), run from any working directories and any
two absolute source-directory paths, the produced archives are
byte-identical: every serialisation of the entry sequences agrees, because
the entry sequences themselves are equal. -/
theorem c1_deterministic_packaging (cwd1 cwd2 : PStr) (sd1 sd2 : List PStr)
    (t1 t2 : List DirTree)
    (h1 : ∀ c ∈ sd1, CleanComp c) (h2 : ∀ c ∈ sd2, CleanComp c)
    (ht1 : cleanForest t1 = true) (ht2 : cleanForest t2 = true)
    (hsame : stripForest t1 = stripForest t2) :
    ∀ serialize : List ZipEntry → List Byte,
      serialize (create_zip_file cwd1 (rooted sd1) t1)
        = serialize (create_zip_file cwd2 (rooted sd2) t2) := by
  intro serialize
  congr 1
  rw [create_zip_file_normal cwd1 sd1 t1 h1 ht1,
      create_zip_file_normal cwd2 sd2 t2 h2 ht2]
  have key : ∀ ts : List DirTree,
      (relFilesAll ts).map (fun pf => cleanEntry pf.1 pf.2)
        = (relFilesAll (stripForest ts)).map (fun pf => cleanEntry pf.1 pf.2) := by
    intro ts
    rw [stripForest_all, List.map_map]
    exact List.map_congr_left fun pf _ => rfl
  rw [key t1, key t2, hsame]

/-- Witness for C1 at a concrete pair of runs: same names, contents and
modes, different mtimes, different source directories and working
directories. -/
theorem c1_deterministic_packaging_witness :
    demoSerialize (create_zip_file [] (rooted [['s']]) demoTree1)
      = demoSerialize (create_zip_file ['c'] (rooted [['x'], ['y']]) demoTree2) :=
  c1_deterministic_packaging [] ['c'] [['s']] [['x'], ['y']] demoTree1 demoTree2
    (by decide) (by decide)
    (by simp [demoTree1, cleanForest, cleanTree, CleanComp, sep, nullChar, curdir, pardir])
    (by simp [demoTree2, cleanForest, cleanTree, CleanComp, sep, nullChar, curdir, pardir])
    (by simp [demoTree1, demoTree2, stripForest, stripTree])
    demoSerialize

/-- C2: every entry written by ChaliceZipFile.write stores the fixed
date/time (1980, 1, 1, 0, 0, 0), and whenever the source file's real
modification time renders to a different zip date_time, the stored value
is not that modification time. -/
theorem c2_fixed_timestamp (compression : Nat) (f : SrcFile) (fn : PStr)
    (arc : Option PStr) (ct : Option Nat) (mtimeAsDateTime : Nat → DateTime6)
    (h : mtimeAsDateTime f.mtime ≠ default_time_time) :
    (zipWrite compression f fn arc ct).date_time = (1980, 1, 1, 0, 0, 0)
      ∧ (zipWrite compression f fn arc ct).date_time ≠ mtimeAsDateTime f.mtime := by
  refine ⟨rfl, fun e => h ?_⟩
  rw [← e]
  rfl

/-- Witness for C2 at a concrete file of mtime 7. -/
theorem c2_fixed_timestamp_witness :
    (zipWrite ZIP_DEFLATED ⟨[49], 420, 7⟩ ['a'] none none).date_time = (1980, 1, 1, 0, 0, 0)
      ∧ (zipWrite ZIP_DEFLATED ⟨[49], 420, 7⟩ ['a'] none none).date_time
          ≠ demoMtimeRepr (SrcFile.mk [49] 420 7).mtime :=
  c2_fixed_timestamp ZIP_DEFLATED ⟨[49], 420, 7⟩ ['a'] none none demoMtimeRepr (by decide)

/-- C4: the stored entry name of every written entry never begins with the
path separator (it is relative, with no leading separator), and carries no
drive component (POSIX splitdrive always yields an empty drive). -/
theorem c4_relative_names (compression : Nat) (f : SrcFile) (fn : PStr)
    (arc : Option PStr) (ct : Option Nat) :
    (zipWrite compression f fn arc ct).filename.take 1 ≠ [sep]
      ∧ (splitdrive (zipWrite compression f fn arc ct).filename).1 = [] := by
  refine ⟨?_, rfl⟩
  cases arc with
  | none =>
    show (zipInfoFilename (lstripSep (normalized_filename fn))).take 1 ≠ [sep]
    exact zipName_no_leading_sep (normalized_filename fn)
  | some a =>
    show (zipInfoFilename (lstripSep (normalized_filename a))).take 1 ≠ [sep]
    exact zipName_no_leading_sep (normalized_filename a)

/-- Witness for C4 at a concrete absolute caller-supplied arcname. -/
theorem c4_relative_names_witness :
    (zipWrite ZIP_DEFLATED ⟨[49], 420, 7⟩ ['x'] (some ['/', 'e', 't', 'c']) none).filename.take 1
        ≠ [sep]
      ∧ (splitdrive (zipWrite ZIP_DEFLATED ⟨[49], 420, 7⟩ ['x']
          (some ['/', 'e', 't', 'c']) none).filename).1 = [] :=
  c4_relative_names ZIP_DEFLATED ⟨[49], 420, 7⟩ ['x'] (some ['/', 'e', 't', 'c']) none

/-- C5 as stated is false: in an archive whose default compression is
deflate, explicitly passing the store method (ZIP_STORED = 0) does not
select store — Python evaluates compress_type or self.compression, and 0 is
falsy, so the entry is deflated. -/
theorem c5_counterexample :
    (zipWrite ZIP_DEFLATED ⟨[49], 420, 7⟩ ['a'] none (some ZIP_STORED)).compress_type
      ≠ ZIP_STORED := by
  decide

/-- C5 amended: an entry uses the archive default when no compression is
passed; an explicitly passed method is honoured exactly when it is nonzero,
while passing store (0) falls back to the archive default — so store takes
effect only on archives whose default compression is store. -/
theorem c5_compression_selection (compression : Nat) (f : SrcFile) (fn : PStr)
    (arc : Option PStr) :
    ((zipWrite compression f fn arc none).compress_type = compression)
      ∧ (∀ ct : Nat, (zipWrite compression f fn arc (some ct)).compress_type
          = if ct = 0 then compression else ct) := by
  exact ⟨rfl, fun ct => rfl⟩

/-- C6: the external-attribute field of every written entry is the low 16
bits of the file's st_mode shifted into the high 16 bits, and its own low
16 bits are zero. -/
theorem c6_ext_attr_high_bits (compression : Nat) (f : SrcFile) (fn : PStr)
    (arc : Option PStr) (ct : Option Nat) :
    (zipWrite compression f fn arc ct).ext_attr = (f.mode % 2 ^ 16) * 2 ^ 16
      ∧ (zipWrite compression f fn arc ct).ext_attr % 2 ^ 16 = 0 := by
  have h1 : (zipWrite compression f fn arc ct).ext_attr = (f.mode &&& 0xFFFF) <<< 16 := rfl
  have hmask : f.mode &&& 0xFFFF = f.mode % 2 ^ 16 := by
    have := Nat.and_pow_two_sub_one_eq_mod f.mode 16
    norm_num at this
    norm_num
    exact this
  constructor
  · rw [h1, Nat.shiftLeft_eq, hmask]
  · rw [h1, Nat.shiftLeft_eq, hmask]
    exact Nat.mul_mod_left _ _

/-- C7: the produced archive has exactly one entry per regular file of the
source tree, in walk order, whose arcname is the file's forward-slash
relative path; with distinct sibling names the arcnames are pairwise
distinct, so no file appears twice and none is omitted. -/
theorem c7_exactly_one_entry_per_file (cwd : PStr) (sd : List PStr) (ts : List DirTree)
    (hsd : ∀ c ∈ sd, CleanComp c) (hts : cleanForest ts = true)
    (hnd : nodupForest ts = true) :
    ((create_zip_file cwd (rooted sd) ts).map (fun e => e.filename)
        = (relFilesAll ts).map (fun pf => joinSep pf.1))
      ∧ ((create_zip_file cwd (rooted sd) ts).map (fun e => e.filename)).Nodup := by
  have hmap : (create_zip_file cwd (rooted sd) ts).map (fun e => e.filename)
      = (relFilesAll ts).map (fun pf => joinSep pf.1) := by
    rw [create_zip_file_normal cwd sd ts hsd hts, List.map_map]
    exact List.map_congr_left fun pf _ => rfl
  refine ⟨hmap, ?_⟩
  rw [hmap]
  have hsplit : (relFilesAll ts).map (fun pf => joinSep pf.1)
      = ((relFilesAll ts).map (fun pf => pf.1)).map (fun q => joinSep q) := by
    rw [List.map_map]
    rfl
  rw [hsplit]
  refine List.Nodup.map_on ?_ (relFilesAll_paths_nodup ts hnd)
  intro x hx y hy hxy
  obtain ⟨pfx, hpfx, rfl⟩ := List.mem_map.mp hx
  obtain ⟨pfy, hpfy, rfl⟩ := List.mem_map.mp hy
  obtain ⟨hxne, hxcl⟩ := relFilesAll_clean ts hts pfx hpfx
  obtain ⟨hyne, hycl⟩ := relFilesAll_clean ts hts pfy hpfy
  have := congrArg splitSep hxy
  rwa [splitSep_joinSep _ hxne (fun p hp => (hxcl p hp).2.1),
       splitSep_joinSep _ hyne (fun p hp => (hycl p hp).2.1)] at this

/-- Witness for C7 on the spec scenario a/b.txt and a/c/d.txt. -/
theorem c7_exactly_one_entry_per_file_witness :
    ((create_zip_file [] (rooted [['s']]) demoTree1).map (fun e => e.filename)
        = (relFilesAll demoTree1).map (fun pf => joinSep pf.1))
      ∧ ((create_zip_file [] (rooted [['s']]) demoTree1).map (fun e => e.filename)).Nodup :=
  c7_exactly_one_entry_per_file [] [['s']] demoTree1 (by decide)
    (by simp [demoTree1, cleanForest, cleanTree, CleanComp, sep, nullChar, curdir, pardir])
    (by simp [demoTree1, nodupForest, nodupTrees, nodupTree, nodupB, namesOf])

theorem sanitizeMemberName_clean (ps : List PStr) (hne : ps ≠ [])
    (h : ∀ p ∈ ps, CleanComp p) : sanitizeMemberName (joinSep ps) = joinSep ps := by
  rw [sanitizeMemberName, splitSep_joinSep ps hne (fun p hp => (h p hp).2.1)]
  congr 1
  refine List.filter_eq_self.mpr fun a ha => ?_
  have hc := h a ha
  simp [hc.1, hc.2.2.2.1, hc.2.2.2.2]

/-- C3 as stated is false on the permission half: packaging a file of mode
0o755 (493) and extracting with zipfile.ZipFile.extractall yields a file
carrying the process default creation mode (here 0o644 = 420), not the
original permission bits — CPython's _extract_member never applies the
external-attribute bits. -/
theorem c3_counterexample :
    (extract_zipfile 420 (create_zip_file []
          (rooted [['s']]) [.file ['a'] ⟨[49, 50], 493, 7⟩])).map (fun r => r.2.2)
      ≠ [493] := by
  have heval : extract_zipfile 420 (create_zip_file []
        (rooted [['s']]) [.file ['a'] ⟨[49, 50], 493, 7⟩])
      = [(['a'], [49, 50], 420)] := by
    simp only [create_zip_file, osWalkFiles, filesAt, walkChildren, extract_zipfile]
    norm_num
    constructor
    · decide
    · decide
  rw [heval]
  decide

/-- C3 amended: the round trip reproduces, for each regular file and in walk
order, its forward-slash relative path and its content byte-for-byte; the
permission bits are stored (recoverably) in the entries but are not applied
by extract_zipfile — every extracted file carries the process default
creation mode. -/
theorem c3_roundtrip_content (cwd : PStr) (sd : List PStr) (ts : List DirTree)
    (createMode : Nat)
    (hsd : ∀ c ∈ sd, CleanComp c) (hts : cleanForest ts = true) :
    extract_zipfile createMode (create_zip_file cwd (rooted sd) ts)
      = (relFilesAll ts).map (fun pf => (joinSep pf.1, pf.2.content, createMode)) := by
  rw [create_zip_file_normal cwd sd ts hsd hts, extract_zipfile, List.map_map]
  refine List.map_congr_left fun pf hpf => ?_
  obtain ⟨hne, hcl⟩ := relFilesAll_clean ts hts pf hpf
  show (sanitizeMemberName (cleanEntry pf.1 pf.2).filename, (cleanEntry pf.1 pf.2).data, createMode)
      = (joinSep pf.1, pf.2.content, createMode)
  rw [show (cleanEntry pf.1 pf.2).filename = joinSep pf.1 from rfl,
      sanitizeMemberName_clean pf.1 hne hcl]
  rfl

/-- Witness for C3 (amended) at a concrete two-file tree. -/
theorem c3_roundtrip_content_witness :
    extract_zipfile 420 (create_zip_file [] (rooted [['s']]) demoTree1)
      = (relFilesAll demoTree1).map (fun pf => (joinSep pf.1, pf.2.content, 420)) :=
  c3_roundtrip_content [] [['s']] demoTree1 420 (by decide)
    (by simp [demoTree1, cleanForest, cleanTree, CleanComp, sep, nullChar, curdir, pardir])

/-- C8 as stated is false: when the with-block body itself deletes the
temporary directory and then raises a (non-OS) exception, the finally
clause's shutil.rmtree raises FileNotFoundError, which replaces the body's
exception — so the exception raised inside the scope does not propagate. -/
theorem c8_counterexample :
    (tempdirRun [0] [] (sabotageBody [0])).2 = Except.error PyErr.fileNotFound
      ∧ (tempdirRun [0] [] (sabotageBody [0])).2 ≠ Except.error (PyErr.userErr 1) := by
  refine ⟨rfl, fun h => ?_⟩
  rw [show (tempdirRun [0] [] (sabotageBody [0])).2 = Except.error PyErr.fileNotFound
      from rfl] at h
  exact PyErr.noConfusion (Except.error.inj h)

/-- C8 amended: provided the body leaves the temporary directory in place as
a directory, on every exit path (normal or exceptional) the directory and
everything below it no longer exist after tempdir returns, and the body's
outcome — its result or its exception — propagates unchanged. -/
theorem c8_tempdir_cleanup {α : Type} (d : List Nat) (fs : Fs)
    (body : Fs → Fs × Except PyErr α)
    (hdir : isDirAt (body (⟨d, true⟩ :: fs)).1 d = true) :
    (∀ e ∈ (tempdirRun d fs body).1, d.isPrefixOf e.path = false)
      ∧ (tempdirRun d fs body).2 = (body (⟨d, true⟩ :: fs)).2 := by
  have hex : existsAt (body (⟨d, true⟩ :: fs)).1 d = true := by
    rcases List.any_eq_true.mp hdir with ⟨e, he, hpe⟩
    refine List.any_eq_true.mpr ⟨e, he, ?_⟩
    simp only [Bool.and_eq_true, decide_eq_true_eq] at hpe
    simp [hpe.1]
  have hrm : rmtreeFs (body (⟨d, true⟩ :: fs)).1 d
      = Except.ok ((body (⟨d, true⟩ :: fs)).1.filter fun e => !(d.isPrefixOf e.path)) := by
    rw [rmtreeFs, if_neg (by simp [hex]), if_neg (by simp [hdir])]
  have hrun : tempdirRun d fs body
      = ((body (⟨d, true⟩ :: fs)).1.filter (fun e => !(d.isPrefixOf e.path)),
          (body (⟨d, true⟩ :: fs)).2) := by
    rw [tempdirRun, hrm]
  rw [hrun]
  refine ⟨fun e he => ?_, rfl⟩
  have := (List.mem_filter.mp he).2
  simpa using this

/-- Witness for C8 (amended) with a body that succeeds without touching the
directory. -/
theorem c8_tempdir_cleanup_witness :
    (∀ e ∈ (tempdirRun [0] [] demoBody).1, ([0] : List Nat).isPrefixOf e.path = false)
      ∧ (tempdirRun [0] [] demoBody).2 = (demoBody [⟨[0], true⟩]).2 :=
  c8_tempdir_cleanup [0] [] demoBody (by decide)

/-- C9: remove_file on a nonexistent path returns normally and leaves the
filesystem unchanged; on an existing regular file it deletes the file (and
returns normally). -/
theorem c9_remove_file_idempotent (fs : Fs) (p : List Nat) :
    (existsAt fs p = false → remove_file fs p = (fs, Except.ok ()))
      ∧ (existsAt fs p = true → isDirAt fs p = false →
          remove_file fs p
              = (fs.filter (fun e => !(decide (e.path = p))), Except.ok ())
            ∧ existsAt (remove_file fs p).1 p = false) := by
  constructor
  · intro hex
    rw [remove_file]
    rw [show os_remove fs p = (fs, Except.error PyErr.fileNotFound) from by
      rw [os_remove, if_pos hex]]
    rfl
  · intro hex hdir
    have hos : os_remove fs p
        = (fs.filter (fun e => !(decide (e.path = p))), Except.ok ()) := by
      rw [os_remove, if_neg (by simp [hex]), if_neg (by simp [hdir])]
    have hrem : remove_file fs p
        = (fs.filter (fun e => !(decide (e.path = p))), Except.ok ()) := by
      rw [remove_file, hos]
    refine ⟨hrem, ?_⟩
    rw [hrem]
    simp only [existsAt, List.any_eq_false]
    intro e he
    have := (List.mem_filter.mp he).2
    simpa using this

/-- Witness for C9: an absent path is a silent no-op; an existing file is
deleted. -/
theorem c9_remove_file_idempotent_witness :
    (remove_file [⟨[1], false⟩] [2] = ([⟨[1], false⟩], Except.ok ()))
      ∧ (remove_file [⟨[1], false⟩] [1]
            = ([], Except.ok ())
          ∧ existsAt (remove_file [⟨[1], false⟩] [1]).1 [1] = false) :=
  ⟨(c9_remove_file_idempotent [⟨[1], false⟩] [2]).1 (by decide),
    (c9_remove_file_idempotent [⟨[1], false⟩] [1]).2 (by decide) (by decide)⟩

/-- C10: remove_file returns normally on every input — every OS-level
failure of the underlying os.remove (absent path, path naming a directory)
is swallowed by the except OSError clause — and on any such failure the
filesystem is left unchanged. -/
theorem c10_remove_file_swallows_os_errors (fs : Fs) (p : List Nat) :
    (remove_file fs p).2 = Except.ok ()
      ∧ ((os_remove fs p).2 ≠ Except.ok () → remove_file fs p = (fs, Except.ok ())) := by
  by_cases hex : existsAt fs p = false
  · have hos : os_remove fs p = (fs, Except.error PyErr.fileNotFound) := by
      rw [os_remove, if_pos hex]
    have : remove_file fs p = (fs, Except.ok ()) := by
      rw [remove_file, hos]
      rfl
    exact ⟨by rw [this], fun _ => this⟩
  · by_cases hdir : isDirAt fs p = true
    · have hos : os_remove fs p = (fs, Except.error PyErr.isADirectory) := by
        rw [os_remove, if_neg hex, if_pos hdir]
      have : remove_file fs p = (fs, Except.ok ()) := by
        rw [remove_file, hos]
        rfl
      exact ⟨by rw [this], fun _ => this⟩
    · have hos : os_remove fs p
          = (fs.filter (fun e => !(decide (e.path = p))), Except.ok ()) := by
        rw [os_remove, if_neg hex, if_neg hdir]
      refine ⟨?_, fun hne => absurd (by rw [hos]) hne⟩
      rw [remove_file, hos]

/-- Witness for C10: deleting a directory path fails inside os.remove with
IsADirectoryError, yet remove_file returns normally with the filesystem
unchanged. -/
theorem c10_remove_file_swallows_os_errors_witness :
    remove_file [⟨[1], true⟩] [1] = ([⟨[1], true⟩], Except.ok ()) :=
  (c10_remove_file_swallows_os_errors [⟨[1], true⟩] [1]).2 (by
    rw [show (os_remove [⟨[1], true⟩] [1]).2 = Except.error PyErr.isADirectory from rfl]
    exact fun h => Except.noConfusion h)

end Chalice
